import Mathlib

/-!
Verification of the binrun binary resolution and retrieval pipeline
(`src/index.js`): reference parsing, release asset matching, redirect
following download, archive extraction bookkeeping, binary location
heuristics and on-disk cache validation.

Each JavaScript function is shallowly embedded as an executable Lean
definition operating on explicit data (strings as `List Char`, the
filesystem as an explicit tree or association list, HTTP traffic as a
list of responses).
-/

namespace Binrun

/-- Error taxonomy of the pipeline, one constructor per distinct `throw` /
`reject` site in `src/index.js`. -/
inductive BinrunError where
  | invalidReference (input : String)
  | repositoryNotFound (owner repo : String)
  | releaseNotFound (version owner repo : String)
  | apiError (status : Nat)
  | malformedResponse (msg : String)
  | unsupportedPlatform (p : String)
  | unsupportedArch (a : String)
  | noMatchingAsset (osName archName : String)
  | tooManyRedirects
  | downloadFailed (status : Nat)
  | streamFailure
  | emptyResponseChain
  | binaryNotFound
deriving DecidableEq, Repr

/-! ## ReferenceParser (`parseRepoURL`, src/index.js lines 33-43)

The source matches the anchored JavaScript regex
`^github\.com\/([\w.-]+)\/([\w.-]+)(?:@([\w.-]+))?$`.
`\w` is the ASCII class `[A-Za-z0-9_]`.  Because `/` and `@` are not in
the bracket class `[\w.-]`, the regex never needs backtracking: each
capture is the maximal run of class characters, so a greedy `takeWhile`
scan is an exact embedding. -/

/-- One character of the JS class `[\w.-]`. -/
def wchar (c : Char) : Bool :=
  c.isAlpha || c.isDigit || c == '_' || c == '.' || c == '-'

/-- Parsed repository reference (`{owner, repo, version}`). -/
structure RepositoryReference where
  owner : String
  repo : String
  version : String
deriving DecidableEq, Repr

/-- Strip a literal leading character sequence, returning the remainder. -/
def stripLead : List Char → List Char → Option (List Char)
  | [], l => some l
  | _ :: _, [] => none
  | p :: ps, c :: cs => if c = p then stripLead ps cs else none

/-- The literal head `github.com/` of the reference grammar. -/
def ghHead : List Char := ("github.com/").data

/-- Character-list core of `parseRepoURL`: returns owner, repo and version
(the latter defaulted to `latest` when the `@version` suffix is absent). -/
def parseCore (l : List Char) : Option (List Char × List Char × List Char) :=
  match stripLead ghHead l with
  | none => none
  | some r =>
    let owner := r.takeWhile wchar
    match r.dropWhile wchar with
    | '/' :: r2 =>
      if owner = [] then none
      else
        let repo := r2.takeWhile wchar
        if repo = [] then none
        else
          match r2.dropWhile wchar with
          | [] => some (owner, repo, ("latest").data)
          | '@' :: r3 =>
            let ver := r3.takeWhile wchar
            if ver = [] then none
            else
              match r3.dropWhile wchar with
              | [] => some (owner, repo, ver)
              | _ => none
          | _ => none
    | _ => none

/-- `parseRepoURL` (src/index.js lines 33-43). -/
def parseRepoURL (input : String) : Except BinrunError RepositoryReference :=
  match parseCore input.data with
  | some (o, r, v) => .ok ⟨String.mk o, String.mk r, String.mk v⟩
  | none => .error (.invalidReference input)

/-- A nonempty segment drawn from the `[\w.-]` class. -/
def ValidSeg (s : String) : Prop := s.data ≠ [] ∧ ∀ c ∈ s.data, wchar c = true

/-- `input` conforms to the reference grammar with components `r`:
either `github.com/owner/repo` (version defaulted to `latest`) or
`github.com/owner/repo@version`. -/
def Conforms (input : String) (r : RepositoryReference) : Prop :=
  ValidSeg r.owner ∧ ValidSeg r.repo ∧
    ((input.data = ghHead ++ r.owner.data ++ '/' :: r.repo.data ∧ r.version = "latest") ∨
      (input.data = ghHead ++ r.owner.data ++ '/' :: r.repo.data ++ '@' :: r.version.data ∧
        ValidSeg r.version))

theorem stripLead_self_append (p l : List Char) : stripLead p (p ++ l) = some l := by
  induction p with
  | nil => rfl
  | cons c cs ih => simp [stripLead, ih]

theorem eq_append_of_stripLead {p l r : List Char} (h : stripLead p l = some r) :
    l = p ++ r := by
  induction p generalizing l with
  | nil => simpa [stripLead] using h
  | cons c cs ih =>
    cases l with
    | nil => simp [stripLead] at h
    | cons d ds =>
      by_cases hd : d = c
      · subst hd
        simp only [stripLead, if_pos rfl] at h
        simpa using ih h
      · simp [stripLead, hd] at h

theorem takeWhile_of_all {p : Char → Bool} :
    ∀ xs : List Char, (∀ c ∈ xs, p c = true) → xs.takeWhile p = xs
  | [], _ => rfl
  | x :: xs, h => by
    simp only [List.takeWhile_cons, h x (by simp)]
    simpa using takeWhile_of_all xs (fun c hc => h c (by simp [hc]))

theorem dropWhile_of_all {p : Char → Bool} :
    ∀ xs : List Char, (∀ c ∈ xs, p c = true) → xs.dropWhile p = []
  | [], _ => rfl
  | x :: xs, h => by
    simp only [List.dropWhile_cons, h x (by simp)]
    exact dropWhile_of_all xs (fun c hc => h c (by simp [hc]))

theorem takeWhile_all_append {p : Char → Bool} {xs : List Char}
    (h : ∀ c ∈ xs, p c = true) {b : Char} (hb : p b = false) (ys : List Char) :
    (xs ++ b :: ys).takeWhile p = xs := by
  induction xs with
  | nil => simp [List.takeWhile_cons, hb]
  | cons x xs ih =>
    simp only [List.cons_append, List.takeWhile_cons, h x (by simp)]
    simpa using ih (fun c hc => h c (by simp [hc]))

theorem dropWhile_all_append {p : Char → Bool} {xs : List Char}
    (h : ∀ c ∈ xs, p c = true) {b : Char} (hb : p b = false) (ys : List Char) :
    (xs ++ b :: ys).dropWhile p = b :: ys := by
  induction xs with
  | nil => simp [List.dropWhile_cons, hb]
  | cons x xs ih =>
    simp only [List.cons_append, List.dropWhile_cons, h x (by simp)]
    exact ih (fun c hc => h c (by simp [hc]))

theorem mem_of_mem_takeWhile {p : Char → Bool} :
    ∀ {l : List Char} {c : Char}, c ∈ l.takeWhile p → p c = true
  | x :: xs, c, h => by
    by_cases hx : p x = true
    · rw [List.takeWhile_cons, if_pos hx] at h
      rcases List.mem_cons.mp h with rfl | h
      · exact hx
      · exact mem_of_mem_takeWhile h
    · rw [List.takeWhile_cons, if_neg hx] at h
      exact absurd h (List.not_mem_nil c)

theorem parseCore_sound {l o rr v : List Char} (h : parseCore l = some (o, rr, v)) :
    (o ≠ [] ∧ (∀ c ∈ o, wchar c = true)) ∧ (rr ≠ [] ∧ (∀ c ∈ rr, wchar c = true)) ∧
      ((l = ghHead ++ o ++ '/' :: rr ∧ v = ("latest").data) ∨
        (l = ghHead ++ o ++ '/' :: rr ++ '@' :: v ∧ v ≠ [] ∧ ∀ c ∈ v, wchar c = true)) := by
  unfold parseCore at h
  split at h
  · exact absurd h (by simp)
  · rename_i rest hs
    simp only at h
    have hl : l = ghHead ++ rest := eq_append_of_stripLead hs
    split at h
    · rename_i r2 hd
      split at h
      · exact absurd h (by simp)
      · rename_i ho
        split at h
        · exact absurd h (by simp)
        · rename_i hr
          have hrest : rest = rest.takeWhile wchar ++ '/' :: r2 := by
            conv_lhs => rw [← List.takeWhile_append_dropWhile (p := wchar) (l := rest)]
            rw [hd]
          split at h
          · rename_i hd2
            have hr2 : r2 = r2.takeWhile wchar := by
              conv_lhs => rw [← List.takeWhile_append_dropWhile (p := wchar) (l := r2)]
              rw [hd2, List.append_nil]
            obtain ⟨rfl, rfl, rfl⟩ : o = rest.takeWhile wchar ∧ rr = r2.takeWhile wchar ∧
                v = ("latest").data := by
              simp only [Option.some.injEq, Prod.mk.injEq] at h
              exact ⟨h.1.symm, h.2.1.symm, h.2.2.symm⟩
            refine ⟨⟨ho, fun c hc => mem_of_mem_takeWhile hc⟩,
              ⟨hr, fun c hc => mem_of_mem_takeWhile hc⟩, Or.inl ⟨?_, rfl⟩⟩
            conv_lhs => rw [hl, hrest]
            rw [← hr2, List.append_assoc]
          · rename_i r3 hd2
            split at h
            · exact absurd h (by simp)
            · rename_i hv
              split at h
              · rename_i hd3
                have hr2 : r2 = r2.takeWhile wchar ++ '@' :: r3 := by
                  conv_lhs =>
                    rw [← List.takeWhile_append_dropWhile (p := wchar) (l := r2)]
                  rw [hd2]
                have hr3 : r3 = r3.takeWhile wchar := by
                  conv_lhs =>
                    rw [← List.takeWhile_append_dropWhile (p := wchar) (l := r3)]
                  rw [hd3, List.append_nil]
                obtain ⟨rfl, rfl, rfl⟩ : o = rest.takeWhile wchar ∧
                    rr = r2.takeWhile wchar ∧ v = r3.takeWhile wchar := by
                  simp only [Option.some.injEq, Prod.mk.injEq] at h
                  exact ⟨h.1.symm, h.2.1.symm, h.2.2.symm⟩
                refine ⟨⟨ho, fun c hc => mem_of_mem_takeWhile hc⟩,
                  ⟨hr, fun c hc => mem_of_mem_takeWhile hc⟩,
                  Or.inr ⟨?_, hv, fun c hc => mem_of_mem_takeWhile hc⟩⟩
                conv_lhs => rw [hl, hrest, hr2, hr3]
                simp
              · exact absurd h (by simp)
          · exact absurd h (by simp)
    · exact absurd h (by simp)

theorem parseCore_complete_plain {o rr : List Char}
    (ho : o ≠ []) (hoc : ∀ c ∈ o, wchar c = true)
    (hr : rr ≠ []) (hrc : ∀ c ∈ rr, wchar c = true) :
    parseCore (ghHead ++ o ++ '/' :: rr) = some (o, rr, ("latest").data) := by
  have hslash : wchar '/' = false := by decide
  unfold parseCore
  rw [show ghHead ++ o ++ '/' :: rr = ghHead ++ (o ++ '/' :: rr) by simp,
    stripLead_self_append]
  simp only [dropWhile_all_append hoc hslash, takeWhile_all_append hoc hslash,
    takeWhile_of_all rr hrc, dropWhile_of_all rr hrc]
  rw [if_neg ho, if_neg hr]

theorem parseCore_complete_ver {o rr v : List Char}
    (ho : o ≠ []) (hoc : ∀ c ∈ o, wchar c = true)
    (hr : rr ≠ []) (hrc : ∀ c ∈ rr, wchar c = true)
    (hv : v ≠ []) (hvc : ∀ c ∈ v, wchar c = true) :
    parseCore (ghHead ++ o ++ '/' :: rr ++ '@' :: v) = some (o, rr, v) := by
  have hslash : wchar '/' = false := by decide
  have hat : wchar '@' = false := by decide
  unfold parseCore
  rw [show ghHead ++ o ++ '/' :: rr ++ '@' :: v = ghHead ++ (o ++ '/' :: (rr ++ '@' :: v))
      by simp, stripLead_self_append]
  simp only [dropWhile_all_append hoc hslash, takeWhile_all_append hoc hslash,
    takeWhile_all_append hrc hat, dropWhile_all_append hrc hat,
    takeWhile_of_all v hvc, dropWhile_of_all v hvc]
  rw [if_neg ho, if_neg hr, if_neg hv]

/-- Packing a string back from its character data is the identity. -/
theorem string_mk_data (s : String) : String.mk s.data = s := rfl

/-- **C5.** `parseRepoURL` realizes exactly the grammar
`github.com/<owner>/<repo>[@<version>]` with each segment a nonempty run of
`[\w.-]` characters: parsing succeeds with components `r` precisely when the
input is the serialization of `r` (version defaulted to `latest` when the
`@version` suffix is absent), and every non-conforming string fails with
`invalidReference` (no partial matches, no normalization). -/
theorem parseRepoURL_grammar (input : String) :
    (∀ r, parseRepoURL input = .ok r ↔ Conforms input r) ∧
    ((∀ r, ¬Conforms input r) → parseRepoURL input = .error (.invalidReference input)) := by
  have main : ∀ r, parseRepoURL input = .ok r ↔ Conforms input r := by
    intro r
    constructor
    · intro h
      unfold parseRepoURL at h
      cases hp : parseCore input.data with
      | none => rw [hp] at h; exact absurd h (by simp)
      | some triple =>
        obtain ⟨o, rr, v⟩ := triple
        rw [hp] at h
        simp only [Except.ok.injEq] at h
        obtain ⟨⟨ho, hoc⟩, ⟨hr, hrc⟩, hcase⟩ := parseCore_sound hp
        subst h
        refine ⟨⟨by simpa using ho, by simpa using hoc⟩,
          ⟨by simpa using hr, by simpa using hrc⟩, ?_⟩
        rcases hcase with ⟨hl, hv⟩ | ⟨hl, hv, hvc⟩
        · exact Or.inl ⟨by simpa using hl, by simp [hv]⟩
        · exact Or.inr ⟨by simpa using hl, by simpa using hv, by simpa using hvc⟩
    · intro hc
      obtain ⟨⟨ho, hoc⟩, ⟨hr, hrc⟩, hcase⟩ := hc
      unfold parseRepoURL
      rcases hcase with ⟨hl, hv⟩ | ⟨hl, hv, hvc⟩
      · rw [hl, parseCore_complete_plain (by simpa using ho) hoc (by simpa using hr) hrc]
        obtain ⟨ow, re, ve⟩ := r
        simp only at hv
        subst hv
        rfl
      · rw [hl, parseCore_complete_ver (by simpa using ho) hoc (by simpa using hr) hrc
          (by simpa using hv) hvc]
  refine ⟨main, fun hnone => ?_⟩
  cases hp : parseCore input.data with
  | none => simp [parseRepoURL, hp]
  | some triple =>
    obtain ⟨o, rr, v⟩ := triple
    exact absurd ((main ⟨String.mk o, String.mk rr, String.mk v⟩).mp
      (by simp [parseRepoURL, hp])) (hnone _)

/-- Witness for C5: a conforming reference with an explicit version parses to
its components, and a non-conforming string fails with `invalidReference`. -/
theorem parseRepoURL_grammar_witness :
    parseRepoURL "github.com/acme/widget@v1.2.0" =
        .ok ⟨"acme", "widget", "v1.2.0"⟩ ∧
      parseRepoURL "github.com/acme/widget/" =
        .error (.invalidReference "github.com/acme/widget/") := by
  constructor
  · exact ((parseRepoURL_grammar "github.com/acme/widget@v1.2.0").1
      ⟨"acme", "widget", "v1.2.0"⟩).mpr
      ⟨⟨by decide, by decide⟩, ⟨by decide, by decide⟩, Or.inr ⟨by decide, by decide, by decide⟩⟩
  · refine (parseRepoURL_grammar "github.com/acme/widget/").2 fun r hc => ?_
    obtain ⟨⟨ho, hoc⟩, ⟨hr, hrc⟩, hcase⟩ := hc
    rcases hcase with ⟨hl, _⟩ | ⟨hl, _, _⟩
    · have hlast := congrArg (fun l : List Char => l.getLast?) hl
      have hne : r.repo.data ≠ [] := by simpa using hr
      simp only [List.getLast?_append, List.getLast?_cons, ghHead] at hlast
      rw [List.getLast?_eq_getLast _ hne] at hlast
      have : '/' = r.repo.data.getLast hne := by
        simpa using hlast
      exact absurd (hrc _ (List.getLast_mem hne)) (by rw [← this]; decide)
    · have hlast := congrArg (fun l : List Char => l.getLast?) hl
      have hne : r.version.data ≠ [] := by
        rename_i hv _
        simpa using hv
      simp only [List.getLast?_append, List.getLast?_cons, ghHead] at hlast
      rw [List.getLast?_eq_getLast _ hne] at hlast
      have : '/' = r.version.data.getLast hne := by
        simpa using hlast
      rename_i hvc
      exact absurd (hvc _ (List.getLast_mem hne)) (by rw [← this]; decide)

/-! ## PlatformProbe (`getSystemInfo`, src/index.js lines 157-192) -/

/-- System information derived from the host platform and architecture. -/
structure SystemInfo where
  osName : String
  archName : String
  platform : String
deriving DecidableEq, Repr

/-- `getSystemInfo` (src/index.js lines 157-192). -/
def getSystemInfo (platform arch : String) : Except BinrunError SystemInfo :=
  match (match platform with
    | "darwin" => some "Darwin"
    | "linux" => some "Linux"
    | "win32" => some "Windows"
    | _ => none) with
  | none => .error (.unsupportedPlatform platform)
  | some osName =>
    match (match arch with
      | "x64" => some "x86_64"
      | "arm64" => some "arm64"
      | "ia32" => some "386"
      | _ => none) with
    | none => .error (.unsupportedArch arch)
    | some archName => .ok ⟨osName, archName, platform⟩

/-! ## AssetMatcher (`findMatchingAsset`, src/index.js lines 201-243)

The three regexes are built from template strings in which `\.` collapses
to a plain `.` (JavaScript string escaping), so every dot in the extension
part is the regex wildcard.  The patterns carry a trailing `$` but no
leading `^`, and the `i` flag.  A regex of this shape (literals, wildcard
dots and a top-level alternation, anchored only at the end) tests true on
`name` exactly when some suffix of `name` matches one alternative in
full; interpolated repository characters are literals except `.`, which
is again the wildcard. -/

/-- One compiled regex atom: a literal (case-insensitive) or the wildcard. -/
inductive PatAtom where
  | lit (c : Char)
  | anyc
deriving DecidableEq, Repr

/-- Full-match of an atom sequence against a character list, literals
compared case-insensitively (the `i` flag). -/
def patMatch : List PatAtom → List Char → Bool
  | [], [] => true
  | [], _ :: _ => false
  | _ :: _, [] => false
  | .lit c :: ps, d :: ds => (c.toLower == d.toLower) && patMatch ps ds
  | .anyc :: ps, _ :: ds => patMatch ps ds

/-- Compile an interpolated string: `.` is the regex wildcard, everything
else a literal (the asset patterns interpolate only `[\w.-]` segments and
fixed OS/arch names, where `.` is the sole metacharacter). -/
def compileSeg (s : String) : List PatAtom :=
  s.data.map fun c => if c = '.' then .anyc else .lit c

/-- A `$`-anchored, `^`-free regex alternation tests true on `name` iff
some suffix of `name` fully matches one alternative. -/
def testEnd (pats : List (List PatAtom)) (name : String) : Bool :=
  name.data.tails.any fun t => pats.any fun p => patMatch p t

/-- OS-name alternatives: on macOS the source widens the pattern to
`(Darwin|macOS)`. -/
def osAlts (sys : SystemInfo) : List String :=
  if sys.platform = "darwin" then ["Darwin", "macOS"] else [sys.osName]

/-- Alternatives of the tar regex
`` `${repo}_${osPattern}_${archName}(\.tar\.gz|\.tgz)$` ``
(the `\.` are plain wildcard dots in the compiled regex). -/
def tarPats (repo : String) (sys : SystemInfo) : List (List PatAtom) :=
  (osAlts sys).flatMap fun os =>
    [compileSeg repo ++ [.lit '_'] ++ compileSeg os ++ [.lit '_'] ++
        compileSeg sys.archName ++ [.anyc, .lit 't', .lit 'a', .lit 'r', .anyc,
        .lit 'g', .lit 'z'],
      compileSeg repo ++ [.lit '_'] ++ compileSeg os ++ [.lit '_'] ++
        compileSeg sys.archName ++ [.anyc, .lit 't', .lit 'g', .lit 'z']]

/-- Alternatives of the zip regex `` `${repo}_${osPattern}_${archName}\.zip$` ``. -/
def zipPats (repo : String) (sys : SystemInfo) : List (List PatAtom) :=
  (osAlts sys).map fun os =>
    compileSeg repo ++ [.lit '_'] ++ compileSeg os ++ [.lit '_'] ++
      compileSeg sys.archName ++ [.anyc, .lit 'z', .lit 'i', .lit 'p']

/-- Alternatives of the direct-binary regex
`` `${repo}(_${osPattern}_${archName})?${binaryExt}$` `` where `binaryExt`
is `.exe` (wildcard dot) on Windows and empty otherwise. -/
def binPats (repo : String) (sys : SystemInfo) : List (List PatAtom) :=
  let ext : List PatAtom :=
    if sys.platform = "win32" then [.anyc, .lit 'e', .lit 'x', .lit 'e'] else []
  (compileSeg repo ++ ext) ::
    (osAlts sys).map fun os =>
      compileSeg repo ++ [.lit '_'] ++ compileSeg os ++ [.lit '_'] ++
        compileSeg sys.archName ++ ext

/-- A release asset as returned by the release API. -/
structure ReleaseAsset where
  name : String
  browser_download_url : String
deriving DecidableEq, Repr

/-- Classification attached by the matcher (`isTar` / `isZip` / `isBinary`). -/
inductive ArchiveKind where
  | tar
  | zip
  | binary
deriving DecidableEq, Repr

/-- `findMatchingAsset` (src/index.js lines 201-243): tar archives first,
then zip archives, then direct binaries; within a tier the first asset in
list order wins. -/
def findMatchingAsset (assets : List ReleaseAsset) (sys : SystemInfo) (repo : String) :
    Except BinrunError (ReleaseAsset × ArchiveKind) :=
  match assets.find? fun a => testEnd (tarPats repo sys) a.name with
  | some a => .ok (a, .tar)
  | none =>
    match assets.find? fun a => testEnd (zipPats repo sys) a.name with
    | some a => .ok (a, .zip)
    | none =>
      match assets.find? fun a => testEnd (binPats repo sys) a.name with
      | some a => .ok (a, .binary)
      | none => .error (.noMatchingAsset sys.osName sys.archName)

/-- The matcher's result is a tar-classified asset whose name matches the
tar pattern. -/
def IsTarResult (repo : String) (sys : SystemInfo)
    (res : Except BinrunError (ReleaseAsset × ArchiveKind)) : Prop :=
  match res with
  | .ok (c, k) => k = .tar ∧ testEnd (tarPats repo sys) c.name = true
  | .error _ => False

/-- **C6.** Whenever the asset list contains a tar-pattern match and a
zip-pattern match for the platform, the matcher returns a tar-pattern
asset classified as a tar archive, regardless of the relative order of
the two assets in the list. -/
theorem findMatchingAsset_tar_first (assets : List ReleaseAsset) (sys : SystemInfo)
    (repo : String) (a b : ReleaseAsset) (ha : a ∈ assets)
    (hat : testEnd (tarPats repo sys) a.name = true) (hb : b ∈ assets)
    (hbz : testEnd (zipPats repo sys) b.name = true) :
    IsTarResult repo sys (findMatchingAsset assets sys repo) := by
  unfold findMatchingAsset
  cases hf : assets.find? fun x => testEnd (tarPats repo sys) x.name with
  | none =>
    exact absurd (List.find?_eq_none.mp hf a ha) (by simp [hat])
  | some c =>
    exact ⟨rfl,
      List.find?_some (p := fun x : ReleaseAsset => testEnd (tarPats repo sys) x.name) hf⟩

/-- Witness for C6: with the zip asset listed before the tar asset, the tar
asset is still selected. -/
theorem findMatchingAsset_tar_first_witness :
    IsTarResult "widget" ⟨"Linux", "x86_64", "linux"⟩ (findMatchingAsset
      [⟨"widget_Linux_x86_64.zip", "u1"⟩, ⟨"widget_Linux_x86_64.tar.gz", "u2"⟩]
      ⟨"Linux", "x86_64", "linux"⟩ "widget") :=
  findMatchingAsset_tar_first _ _ _
    ⟨"widget_Linux_x86_64.tar.gz", "u2"⟩ ⟨"widget_Linux_x86_64.zip", "u1"⟩
    (by simp) (by decide) (by simp) (by decide)

/-- An asset name has the strict (escaped-dot, fully anchored) tar form
`<repo>_<os>_<arch>.tar.gz` / `.tgz` that the spec describes. -/
def strictTarForm (repo osName archName name : String) : Prop :=
  name = repo ++ "_" ++ osName ++ "_" ++ archName ++ ".tar.gz" ∨
    name = repo ++ "_" ++ osName ++ "_" ++ archName ++ ".tgz"

/-- **C9.** The tar pattern is unanchored at the start and its dots are
wildcards: for repo `widget` on Linux/x86_64, both
`notwidget_Linux_x86_64.tar.gz` and `widget_Linux_x86_64xtarxgz` are
selected and classified as tar archives, though neither has the strict
form `widget_Linux_x86_64.tar.gz` / `.tgz`. -/
theorem findMatchingAsset_loose_tar :
    findMatchingAsset [⟨"notwidget_Linux_x86_64.tar.gz", "u"⟩]
        ⟨"Linux", "x86_64", "linux"⟩ "widget" =
      .ok (⟨"notwidget_Linux_x86_64.tar.gz", "u"⟩, .tar) ∧
    findMatchingAsset [⟨"widget_Linux_x86_64xtarxgz", "u"⟩]
        ⟨"Linux", "x86_64", "linux"⟩ "widget" =
      .ok (⟨"widget_Linux_x86_64xtarxgz", "u"⟩, .tar) ∧
    ¬strictTarForm "widget" "Linux" "x86_64" "notwidget_Linux_x86_64.tar.gz" ∧
    ¬strictTarForm "widget" "Linux" "x86_64" "widget_Linux_x86_64xtarxgz" := by
  refine ⟨by rfl, by rfl, ?_, ?_⟩ <;> simp [strictTarForm]

/-! ## ReleaseResolver (`getLatestVersion`, src/index.js lines 51-95)

The response handler checks the status code, then runs `JSON.parse` on the
accumulated body and resolves with `release.tag_name`.  The decoded JSON
value is modelled explicitly; `JSON.parse` itself (text to value) is
represented by its outcome, an `Except` the handler receives.  Property
access `release.tag_name` yields the JS value or `undefined` when the key
(or an object structure) is absent, modelled as `Option Json`. -/

/-- A decoded JSON value. -/
inductive Json where
  | null
  | bool (b : Bool)
  | num (n : Int)
  | str (s : String)
  | arr (l : List Json)
  | obj (kvs : List (String × Json))

/-- JS property access `v.key`: the first binding in an object (or
`undefined` = `none` when the key is absent); on `null` the access throws
a `TypeError` (the error text stands in for the engine's message); on any
other primitive or an array it yields `undefined`.  `JSON.parse` never
produces `undefined`, so these are all the decoded values. -/
def Json.get : Json → String → Except String (Option Json)
  | .null, k => .error ("Cannot read properties of null (reading " ++ k ++ ")")
  | .obj kvs, k => .ok ((kvs.find? fun kv => kv.1 = k).map (·.2))
  | _, _ => .ok none

/-- Response handling of `getLatestVersion` (src/index.js lines 63-91):
status checks, then — inside one `try` — `JSON.parse` (whose outcome is
`body`) and `resolve(release.tag_name)`.  Both a parse failure and a
`TypeError` thrown by the property access on a decoded `null` reach the
same `catch` and reject; a decoded object without `tag_name` resolves
with `undefined` (`none`). -/
def getLatestVersionHandler (owner repo : String) (status : Nat)
    (body : Except String Json) : Except BinrunError (Option Json) :=
  if status = 404 then .error (.repositoryNotFound owner repo)
  else if status ≠ 200 then .error (.apiError status)
  else
    match body with
    | .error msg => .error (.malformedResponse msg)
    | .ok release =>
      match release.get "tag_name" with
      | .error msg => .error (.malformedResponse msg)
      | .ok v => .ok v

/-- **C4 (failing input).** On a 200 response whose body decodes to the JSON
object with no fields, `getLatestVersion` resolves successfully with
`undefined` instead of failing with `MalformedResponse`: the code
contradicts both the claim and its own `@returns Promise of string`
contract.  (A body decoding to `null` is different: there the property
access throws and the `catch` does reject.) -/
theorem getLatestVersionHandler_missing_tag :
    getLatestVersionHandler "acme" "widget" 200 (.ok (.obj [])) = .ok none ∧
      getLatestVersionHandler "acme" "widget" 200
        (.ok (.obj [("name", .str "v1.2.0")])) = .ok none ∧
      getLatestVersionHandler "acme" "widget" 200 (.ok .null) =
        .error (.malformedResponse
          "Cannot read properties of null (reading tag_name)") := by
  exact ⟨rfl, rfl, rfl⟩

/-! ## Downloader (`downloadFile`, src/index.js lines 253-304)

The function issues a request and inspects the response: a 3xx status with
a `Location` header recurses with `redirectLimit - 1` (rejecting with
`Too many redirects` once the limit is exhausted), any other non-200
status rejects with `DownloadFailed`, and a 200 response is piped into a
write stream opened at `destPath`; on a stream-level error the
partially-written destination file is unlinked before the rejection.
The successive responses of the redirect chain are modelled as a list,
and the destination file's contents as an `Option (List Nat)`
(`none` = absent), threaded from its initial state. -/

/-- One HTTP response of the chain. -/
structure HttpResponse where
  statusCode : Nat
  location : Option String
  body : List Nat
  streamFails : Bool
deriving DecidableEq, Repr

/-- The source's redirect condition: 3xx status with a `Location` header. -/
def IsRedirect (r : HttpResponse) : Prop :=
  300 ≤ r.statusCode ∧ r.statusCode < 400 ∧ r.location.isSome

instance (r : HttpResponse) : Decidable (IsRedirect r) := by
  unfold IsRedirect; infer_instance

/-- Outcome of `downloadFile`: the promise's result and the final state of
the destination file. -/
structure DlResult where
  outcome : Except BinrunError Unit
  dest : Option (List Nat)
deriving Repr

/-- `downloadFile` (src/index.js lines 253-304) over an explicit response
chain, threading the destination file's contents. -/
def downloadFile (chain : List HttpResponse) (limit : Nat) (dest0 : Option (List Nat)) :
    DlResult :=
  match chain with
  | [] => ⟨.error .emptyResponseChain, dest0⟩
  | r :: rest =>
    if IsRedirect r then
      if limit = 0 then ⟨.error .tooManyRedirects, dest0⟩
      else downloadFile rest (limit - 1) dest0
    else if r.statusCode ≠ 200 then ⟨.error (.downloadFailed r.statusCode), dest0⟩
    else if r.streamFails then ⟨.error .streamFailure, none⟩
    else ⟨.ok (), some r.body⟩

theorem downloadFile_skip_redirects {reds : List HttpResponse}
    (h : ∀ r ∈ reds, IsRedirect r) :
    ∀ {limit : Nat}, reds.length ≤ limit → ∀ chain2 dest0,
      downloadFile (reds ++ chain2) limit dest0 =
        downloadFile chain2 (limit - reds.length) dest0 := by
  induction reds with
  | nil => intro limit _ chain2 dest0; simp
  | cons r reds ih =>
    intro limit hle chain2 dest0
    have hr : IsRedirect r := h r (by simp)
    have hle' : reds.length + 1 ≤ limit := by simpa using hle
    have hpos : limit ≠ 0 := by omega
    rw [List.cons_append, downloadFile, if_pos hr, if_neg hpos,
      ih (fun x hx => h x (by simp [hx])) (by omega)]
    have harith : limit - 1 - reds.length = limit - (r :: reds).length := by
      simp only [List.length_cons]
      omega
    rw [harith]

theorem downloadFile_exhausted {reds : List HttpResponse}
    (h : ∀ r ∈ reds, IsRedirect r) :
    ∀ {limit : Nat}, reds.length = limit + 1 → ∀ chain2 dest0,
      downloadFile (reds ++ chain2) limit dest0 = ⟨.error .tooManyRedirects, dest0⟩ := by
  induction reds with
  | nil => intro limit hlen; simp at hlen
  | cons r reds ih =>
    intro limit hlen chain2 dest0
    have hr : IsRedirect r := h r (by simp)
    have hlen' : reds.length + 1 = limit + 1 := by simpa using hlen
    rcases Nat.eq_zero_or_pos limit with h0 | hpos
    · subst h0
      have hnil : reds = [] := List.eq_nil_of_length_eq_zero (by omega)
      subst hnil
      simp [downloadFile, hr]
    · have hne : limit ≠ 0 := by omega
      rw [List.cons_append, downloadFile, if_pos hr, if_neg hne,
        ih (fun x hx => h x (by simp [hx])) (by omega)]

/-- **C7.** With redirect limit 5, a chain opening with six redirect
responses fails with `tooManyRedirects` (leaving the destination file
untouched), while a chain of at most five redirects followed by a clean
200 response succeeds and leaves the terminal response body as the
destination file's contents. -/
theorem downloadFile_redirect_limit (dest0 : Option (List Nat)) :
    (∀ reds chain2, (∀ r ∈ reds, IsRedirect r) → reds.length = 6 →
      downloadFile (reds ++ chain2) 5 dest0 = ⟨.error .tooManyRedirects, dest0⟩) ∧
    (∀ reds (term : HttpResponse) chain2, (∀ r ∈ reds, IsRedirect r) →
      reds.length ≤ 5 → term.statusCode = 200 → term.streamFails = false →
      downloadFile (reds ++ term :: chain2) 5 dest0 = ⟨.ok (), some term.body⟩) := by
  constructor
  · intro reds chain2 h hlen
    exact downloadFile_exhausted h hlen chain2 dest0
  · intro reds term chain2 h hle h200 hstream
    rw [downloadFile_skip_redirects h hle]
    have hnr : ¬IsRedirect term := by
      intro hr
      have h1 : 300 ≤ term.statusCode := hr.1
      omega
    simp [downloadFile, hnr, h200, hstream]

/-- Witness for C7: a six-redirect chain fails, a five-redirect chain
ending in a 200 succeeds with the body on disk. -/
theorem downloadFile_redirect_limit_witness :
    downloadFile (List.replicate 6 ⟨302, some "u", [], false⟩ ++
        [⟨200, none, [7, 7], false⟩]) 5 none =
      ⟨.error .tooManyRedirects, none⟩ ∧
    downloadFile (List.replicate 5 ⟨302, some "u", [], false⟩ ++
        [⟨200, none, [7, 7], false⟩]) 5 none = ⟨.ok (), some [7, 7]⟩ := by
  constructor
  · exact (downloadFile_redirect_limit none).1 _ _ (by decide) (by decide)
  · exact (downloadFile_redirect_limit none).2 _ ⟨200, none, [7, 7], false⟩ _
      (by decide) (by decide) rfl rfl

/-- **C8.** When the terminal 200 response's stream errors after the
destination file was opened, the partially-written destination file is
deleted before the error propagates: whatever the file's prior contents,
the result pairs the stream error with an absent destination file. -/
theorem downloadFile_stream_error_cleanup (reds : List HttpResponse)
    (term : HttpResponse) (chain2 : List HttpResponse) (limit : Nat)
    (dest0 : Option (List Nat)) (h : ∀ r ∈ reds, IsRedirect r)
    (hle : reds.length ≤ limit) (h200 : term.statusCode = 200)
    (hstream : term.streamFails = true) :
    downloadFile (reds ++ term :: chain2) limit dest0 = ⟨.error .streamFailure, none⟩ := by
  rw [downloadFile_skip_redirects h hle]
  have hnr : ¬IsRedirect term := by
    intro hr
    have h1 : 300 ≤ term.statusCode := hr.1
    omega
  simp [downloadFile, hnr, h200, hstream]

/-- Witness for C8: after one redirect and a failing 200 stream, the
destination file that previously held bytes is gone. -/
theorem downloadFile_stream_error_cleanup_witness :
    downloadFile [⟨302, some "u", [], false⟩, ⟨200, none, [1, 2, 3], true⟩] 5
        (some [9]) = ⟨.error .streamFailure, none⟩ :=
  downloadFile_stream_error_cleanup [⟨302, some "u", [], false⟩]
    ⟨200, none, [1, 2, 3], true⟩ [] 5 (some [9]) (by decide) (by decide) rfl rfl

/-! ## BinaryLocator (`findBinaryInDir`, src/index.js lines 346-466)

The filesystem is modelled as a tree whose files carry their `stat` mode.
`searchDir` (first pass) sorts each directory listing with a comparator
keyed on repo-name containment (first) and common non-binary names
(last); JavaScript `Array.prototype.sort` is stable and the comparator is
consistent with that key, so a stable insertion sort by the key is an
exact embedding.  The shared mutable `binaryPath` is threaded as `acc`:
the loop stops at the top of each iteration once it is set.  The
recursion depth guard `depth > 3` is carried as fuel = 4 - depth. -/

/-- Directory tree: files carry their permission mode. -/
inductive FSTree where
  | file (mode : Nat)
  | dir (entries : List (String × FSTree))

/-- Characters of a name lowercased (JS `toLowerCase` on ASCII names). -/
def lowerData (s : String) : List Char := s.data.map Char.toLower

/-- Contiguous-subsequence test (JS `String.prototype.includes`). -/
def containsSeq (l p : List Char) : Bool := l.tails.any fun t => p.isPrefixOf t

/-- `a.toLowerCase().includes(b.toLowerCase())`. -/
def containsCI (a b : String) : Bool := containsSeq (lowerData a) (lowerData b)

/-- Extensions of the known non-binary extension regex
`\.(md|txt|json|ya?ml|toml|cfg|ini|html|js|ts|css|scss|py|rb|go|rs|java|c|cpp|h|hpp)$/i`. -/
def nonBinaryExts : List String :=
  ["md", "txt", "json", "yaml", "yml", "toml", "cfg", "ini", "html", "js", "ts",
    "css", "scss", "py", "rb", "go", "rs", "java", "c", "cpp", "h", "hpp"]

/-- Test of the non-binary extension regex. -/
def isLikelyNonBinary (name : String) : Bool :=
  nonBinaryExts.any fun e => ('.' :: e.data).isSuffixOf (lowerData name)

/-- Test of the common non-binary name regex
`^(readme|license|changelog|contributing)/i` (a prefix match). -/
def isCommonNonBinary (name : String) : Bool :=
  ["readme", "license", "changelog", "contributing"].any fun p =>
    p.data.isPrefixOf (lowerData name)

/-- Numeric key of the sort comparator (src/index.js lines 358-376):
repo-name matches first, common non-binary names last, ties keep
original order. -/
def sortKey (repo name : String) : Nat :=
  (if containsCI name repo then 0 else 2) + (if isCommonNonBinary name then 1 else 0)

/-- The stable sort of a directory listing by the comparator's key. -/
def sortEntries (repo : String) (entries : List (String × FSTree)) :
    List (String × FSTree) :=
  entries.insertionSort fun a b => sortKey repo a.1 ≤ sortKey repo b.1

/-- `stats.mode & 0o111` is truthy. -/
def hasExecBit (mode : Nat) : Bool := mode &&& 0o111 != 0

/-- `file.toLowerCase().replace(/\.exe$/i, "")`. -/
def lowerBase (name : String) : List Char :=
  if (".exe").data.isSuffixOf (lowerData name) then
    (lowerData name).take ((lowerData name).length - 4)
  else lowerData name

/-- First-pass acceptance (src/index.js lines 387-396): executable bit set
and neither a known non-binary extension nor a common non-binary name. -/
def firstPassAccepted (repo name : String) (mode : Nat) : Bool :=
  hasExecBit mode && !isLikelyNonBinary name && !isCommonNonBinary name

/-- The immediate-break condition of the first pass (src/index.js lines
401-406): basename equals or contains the lowercased repo name, a `.exe`
name containing it, or any extensionless name other than exactly
`LICENSE` / `COPYING`. -/
def firstPassNameMatch (repo name : String) : Bool :=
  lowerBase name == lowerData repo ||
    containsSeq (lowerBase name) (lowerData repo) ||
    ((".exe").data.isSuffixOf name.data && containsSeq (lowerBase name) (lowerData repo)) ||
    (!name.data.contains '.' && name != "LICENSE" && name != "COPYING")

/-- One directory's loop of the first pass (src/index.js lines 378-417):
`sub` is the recursive scan of a subdirectory, `acc` the shared mutable
`binaryPath` (checked at the top of every iteration: once set, the loop
breaks). -/
def scanFiles (repo : String)
    (sub : FSTree → List String → Option (List String) → Option (List String)) :
    List (String × FSTree) → List String → Option (List String) → Option (List String)
  | [], _, acc => acc
  | (name, t) :: rest, cur, acc =>
    if acc.isSome then acc
    else
      match t with
      | .dir d => scanFiles repo sub rest cur (sub (.dir d) (cur ++ [name]) acc)
      | .file mode =>
        if firstPassAccepted repo name mode then
          if firstPassNameMatch repo name then some (cur ++ [name])
          else scanFiles repo sub rest cur (some (cur ++ [name]))
        else scanFiles repo sub rest cur acc

/-- First pass `searchDir` (src/index.js lines 351-418), fuel-indexed:
fuel 4 - depth, so the `depth > 3` guard is fuel 0.  The root call
`searchDir(dir)` is fuel 4. -/
def searchDir (repo : String) : Nat → FSTree → List String → Option (List String) →
    Option (List String)
  | _, .file _, _, acc => acc
  | 0, .dir _, _, acc => acc
  | f + 1, .dir entries, cur, acc =>
    scanFiles repo (searchDir repo f) (sortEntries repo entries) cur acc

/-- Fallback-pass candidate test (src/index.js lines 435-437): no dot in
the name or a literal `.exe` suffix, and not exactly (case-insensitively)
one of `license|copying|readme|changelog|contributing`. -/
def finalCandidate (name : String) : Bool :=
  (!name.data.contains '.' || (".exe").data.isSuffixOf name.data) &&
    !(["license", "copying", "readme", "changelog", "contributing"].any fun p =>
      p.data == lowerData name)

/-- Fallback-pass repo-name preference (src/index.js lines 440-441). -/
def finalNameMatch (repo name : String) : Bool :=
  lowerBase name == lowerData repo || containsSeq (lowerData name) (lowerData repo)

/-- Fallback pass `finalSearch` (src/index.js lines 425-453): unbounded
recursion, no sorting, no executable-bit requirement.  Returns the JS
function's return value and the shared `binaryPath` (which tentative
candidates update); a subdirectory's truthy return is propagated
immediately. -/
def finalLoop (repo : String) : List (String × FSTree) → List String →
    Option (List String) → Option (List String) × Option (List String)
  | [], _, bp => (bp, bp)
  | (name, .dir sub) :: rest, cur, bp =>
    match finalLoop repo sub (cur ++ [name]) bp with
    | (some r, bp') => (some r, bp')
    | (none, bp') => finalLoop repo rest cur bp'
  | (name, .file _) :: rest, cur, bp =>
    if finalCandidate name then
      if finalNameMatch repo name then (some (cur ++ [name]), bp)
      else finalLoop repo rest cur (if bp.isNone then some (cur ++ [name]) else bp)
    else finalLoop repo rest cur bp

/-- `chmod` at a path inside the tree. -/
def chmodTree : FSTree → List String → Nat → FSTree
  | .file _, [], m => .file m
  | .file m0, _ :: _, _ => .file m0
  | .dir es, [], _ => .dir es
  | .dir es, n :: p, m =>
    .dir (es.map fun e => if e.1 = n then (e.1, chmodTree e.2 p m) else e)

/-- `stat` of the node at a path (mode of a file, `none` otherwise). -/
def statAt : FSTree → List String → Option Nat
  | .file m, [] => some m
  | .dir _, [] => none
  | .file _, _ :: _ => none
  | .dir es, n :: p =>
    match es.find? fun e => e.1 = n with
    | some e => statAt e.2 p
    | none => none

/-- `findBinaryInDir` (src/index.js lines 346-466): first pass, then the
fallback pass, then `chmod 0o755` on the chosen path. -/
def findBinaryInDir (t : FSTree) (repo : String) :
    Except BinrunError (List String × FSTree) :=
  let fp := searchDir repo 4 t [] none
  let bp := match fp with
    | some p => some p
    | none =>
      match t with
      | .dir entries => (finalLoop repo entries [] none).1
      | .file _ => none
  match bp with
  | none => .error .binaryNotFound
  | some p => .ok (p, chmodTree t p 0o755)

/-! ### First pass: every accepted candidate halts the scan -/

/-- The first-pass-accepted files of one directory's loop, in scan order
(`subC` collects a subdirectory's accepted files). -/
def collectFiles (repo : String) (subC : FSTree → List String → List (List String)) :
    List (String × FSTree) → List String → List (List String)
  | [], _ => []
  | (name, t) :: rest, cur =>
    match t with
    | .dir d => subC (.dir d) (cur ++ [name]) ++ collectFiles repo subC rest cur
    | .file mode =>
      if firstPassAccepted repo name mode then
        (cur ++ [name]) :: collectFiles repo subC rest cur
      else collectFiles repo subC rest cur

/-- All first-pass-accepted files in sorted depth-first scan order, with
the same fuel discipline as `searchDir`. -/
def acceptedDir (repo : String) : Nat → FSTree → List String → List (List String)
  | _, .file _, _ => []
  | 0, .dir _, _ => []
  | f + 1, .dir entries, cur =>
    collectFiles repo (acceptedDir repo f) (sortEntries repo entries) cur

theorem scanFiles_some (repo : String)
    (sub : FSTree → List String → Option (List String) → Option (List String))
    (l : List (String × FSTree)) (cur : List String) (p : List String) :
    scanFiles repo sub l cur (some p) = some p := by
  cases l with
  | nil => rfl
  | cons e rest => obtain ⟨name, t⟩ := e; simp [scanFiles]

theorem scan_collect_agree (repo : String) :
    ∀ f : Nat, ∀ t cur, searchDir repo f t cur none = (acceptedDir repo f t cur).head? := by
  intro f
  induction f with
  | zero => intro t cur; cases t <;> rfl
  | succ f ih =>
    intro t cur
    cases t with
    | file m => rfl
    | dir entries =>
      show scanFiles repo (searchDir repo f) (sortEntries repo entries) cur none =
        (collectFiles repo (acceptedDir repo f) (sortEntries repo entries) cur).head?
      generalize sortEntries repo entries = l
      induction l generalizing cur with
      | nil => rfl
      | cons e rest ihl =>
        obtain ⟨name, t⟩ := e
        cases t with
        | dir d =>
          rw [show scanFiles repo (searchDir repo f) ((name, FSTree.dir d) :: rest) cur none
              = scanFiles repo (searchDir repo f) rest cur
                (searchDir repo f (.dir d) (cur ++ [name]) none) from rfl,
            ih (.dir d) (cur ++ [name])]
          rw [show collectFiles repo (acceptedDir repo f) ((name, FSTree.dir d) :: rest) cur
              = acceptedDir repo f (.dir d) (cur ++ [name]) ++
                collectFiles repo (acceptedDir repo f) rest cur from rfl,
            List.head?_append]
          cases hh : (acceptedDir repo f (.dir d) (cur ++ [name])).head? with
          | some p => rw [scanFiles_some, Option.or]
          | none => rw [ihl cur, Option.or]
        | file mode =>
          cases hacc : firstPassAccepted repo name mode with
          | true =>
            cases hm : firstPassNameMatch repo name with
            | true => simp [scanFiles, collectFiles, hacc, hm]
            | false => simp [scanFiles, collectFiles, hacc, hm, scanFiles_some]
          | false => simp [scanFiles, collectFiles, hacc, ihl cur]

/-- **C3 (amended).** The first (executable-bit) pass returns the first
accepted candidate in sorted depth-first scan order: every accepted
candidate halts the scan, whether or not its name matches the repository
name.  The preference for repo-name matches arises only from the
per-directory sort key. -/
theorem searchDir_first_accepted (repo : String) (t : FSTree) :
    searchDir repo 4 t [] none = (acceptedDir repo 4 t []).head? :=
  scan_collect_agree repo 4 t []

/-- **C3 (counterexample).** In a tree whose root lists an accepted but
non-repo-matching executable `tool.bin` before a subdirectory holding the
accepted, repo-matching executable `widget`, the first pass returns
`tool.bin`: the tentatively-kept candidate ends the scan instead of the
scan continuing to the repo-name-matching file. -/
theorem searchDir_tentative_halts_cex :
    searchDir "widget" 4
        (.dir [("tool.bin", .file 0o755), ("sub", .dir [("widget", .file 0o755)])])
        [] none = some ["tool.bin"] ∧
      firstPassAccepted "widget" "tool.bin" 0o755 = true ∧
      firstPassNameMatch "widget" "tool.bin" = false ∧
      firstPassAccepted "widget" "widget" 0o755 = true ∧
      firstPassNameMatch "widget" "widget" = true ∧
      statAt (.dir [("tool.bin", .file 0o755), ("sub", .dir [("widget", .file 0o755)])])
        ["sub", "widget"] = some 0o755 := by
  refine ⟨by decide, by decide, by decide, by decide, by decide, by decide⟩

/-! ### Fallback pass: unbounded depth, no executable bit, exact-name
exclusion only -/

/-- The deepest directory of the C10 family: `LICENSE` (excluded exactly)
listed before `LICENSE-MIT`, both mode `0o644`. -/
def lmFiles : List (String × FSTree) :=
  [("LICENSE", .file 0o644), ("LICENSE-MIT", .file 0o644)]

/-- `lmFiles` nested under `n` directories named `d`. -/
def nestedOnly : Nat → List (String × FSTree)
  | 0 => lmFiles
  | n + 1 => [("d", .dir (nestedOnly n))]

/-- Path of the `LICENSE-MIT` file at nesting depth `n`. -/
def lmPath (n : Nat) : List String := List.replicate n "d" ++ ["LICENSE-MIT"]

theorem finalLoop_nested : ∀ n : Nat, ∀ cur,
    finalLoop "widget" (nestedOnly n) cur none =
      (some (cur ++ lmPath n), some (cur ++ lmPath n)) := by
  intro n
  induction n with
  | zero =>
    intro cur
    have h1 : finalCandidate "LICENSE" = false := by decide
    have h2 : finalCandidate "LICENSE-MIT" = true := by decide
    have h3 : finalNameMatch "widget" "LICENSE-MIT" = false := by decide
    show finalLoop "widget"
      [("LICENSE", .file 0o644), ("LICENSE-MIT", .file 0o644)] cur none = _
    rw [finalLoop.eq_3, if_neg (by simp [h1]), finalLoop.eq_3, if_pos h2,
      if_neg (by simp [h3])]
    rw [show (if (none : Option (List String)).isNone = true
        then some (cur ++ ["LICENSE-MIT"]) else none) = some (cur ++ ["LICENSE-MIT"])
      from rfl]
    rw [finalLoop.eq_1]
    simp [lmPath]
  | succ n ihn =>
    intro cur
    show finalLoop "widget" [("d", .dir (nestedOnly n))] cur none = _
    rw [finalLoop.eq_2, ihn (cur ++ ["d"])]
    show (some (cur ++ ["d"] ++ lmPath n), some (cur ++ ["d"] ++ lmPath n)) = _
    simp [lmPath, List.replicate_succ]

theorem searchDir_nested : ∀ f : Nat, ∀ n cur acc,
    searchDir "widget" f (.dir (nestedOnly n)) cur acc = acc := by
  intro f
  induction f with
  | zero => intro n cur acc; rfl
  | succ f ih =>
    intro n cur acc
    cases n with
    | zero =>
      show scanFiles "widget" (searchDir "widget" f)
        (sortEntries "widget" lmFiles) cur acc = acc
      rw [show sortEntries "widget" lmFiles = lmFiles from rfl]
      cases acc with
      | some p => exact scanFiles_some _ _ _ _ _
      | none =>
        have hA : firstPassAccepted "widget" "LICENSE" 0o644 = false := by decide
        have hB : firstPassAccepted "widget" "LICENSE-MIT" 0o644 = false := by decide
        simp [lmFiles, scanFiles, hA, hB]
    | succ n =>
      show scanFiles "widget" (searchDir "widget" f)
        (sortEntries "widget" [("d", .dir (nestedOnly n))]) cur acc = acc
      rw [show sortEntries "widget" [("d", .dir (nestedOnly n))]
          = [("d", .dir (nestedOnly n))] from rfl]
      cases acc with
      | some p => exact scanFiles_some _ _ _ _ _
      | none =>
        show scanFiles "widget" (searchDir "widget" f) [] cur
          (searchDir "widget" f (.dir (nestedOnly n)) (cur ++ ["d"]) none) = none
        rw [ih n (cur ++ ["d"]) none]
        rfl

theorem statAt_nested : ∀ n : Nat, statAt (.dir (nestedOnly n)) (lmPath n) = some 0o644 := by
  intro n
  induction n with
  | zero => rfl
  | succ n ih =>
    show statAt (.dir [("d", .dir (nestedOnly n))]) (lmPath (n + 1)) = some 0o644
    rw [show lmPath (n + 1) = "d" :: lmPath n by simp [lmPath, List.replicate_succ]]
    show statAt (.dir (nestedOnly n)) (lmPath n) = some 0o644
    exact ih

theorem find?_name_map (es : List (String × FSTree)) (n : String)
    (f : String × FSTree → String × FSTree) (hf : ∀ e, (f e).1 = e.1) :
    (es.map f).find? (fun e => e.1 = n) = (es.find? fun e => e.1 = n).map f := by
  induction es with
  | nil => rfl
  | cons e rest ih =>
    by_cases h : e.1 = n
    · rw [List.map_cons, List.find?_cons_of_pos _ (by simp [hf, h]),
        List.find?_cons_of_pos _ (by simp [h])]
      rfl
    · rw [List.map_cons, List.find?_cons_of_neg _ (by simp [hf, h]),
        List.find?_cons_of_neg _ (by simp [h]), ih]

theorem statAt_chmodTree : ∀ (p : List String) (t : FSTree) (m m0 : Nat),
    statAt t p = some m0 → statAt (chmodTree t p m) p = some m := by
  intro p
  induction p with
  | nil =>
    intro t m m0 h
    cases t with
    | file m1 => rfl
    | dir es => simp [statAt] at h
  | cons n p ih =>
    intro t m m0 h
    cases t with
    | file m1 => simp [statAt] at h
    | dir es =>
      rw [chmodTree, statAt,
        find?_name_map es n _ (fun e => by by_cases he : e.1 = n <;> simp [he])]
      cases hf : es.find? fun e => e.1 = n with
      | none =>
        simp only [statAt, hf] at h
        exact absurd h (by simp)
      | some e =>
        rw [statAt] at h
        rw [hf] at h
        have hen : e.1 = n := of_decide_eq_true
          (List.find?_some (p := fun e : String × FSTree => decide (e.1 = n)) hf)
        simp only [hf, Option.map_some']
        rw [if_pos hen]
        exact ih e.2 m m0 h

/-- **C10.** The fallback pass recurses with no depth bound, ignores
executable permission entirely, and excludes non-binary basenames only by
exact match: for every nesting depth `n` of a tree whose only files are a
(skipped) `LICENSE` and a non-executable extensionless `LICENSE-MIT`,
the first pass finds nothing, yet `findBinaryInDir` returns the
`LICENSE-MIT` path with its mode rewritten to `0o755`. -/
theorem findBinaryInDir_fallback_unbounded (n : Nat) :
    (findBinaryInDir (.dir (nestedOnly n)) "widget").map
        (fun pr => (pr.1, statAt pr.2 pr.1)) = .ok (lmPath n, some 0o755) ∧
      searchDir "widget" 4 (.dir (nestedOnly n)) [] none = none ∧
      statAt (.dir (nestedOnly n)) (lmPath n) = some 0o644 ∧
      hasExecBit 0o644 = false := by
  refine ⟨?_, searchDir_nested 4 n [] none, statAt_nested n, by decide⟩
  rw [findBinaryInDir]
  simp only [searchDir_nested 4 n [] none]
  rw [show (finalLoop "widget" (nestedOnly n) [] none).1 = some (lmPath n) by
    rw [finalLoop_nested n []]; simp]
  simp only [Except.map]
  rw [statAt_chmodTree (lmPath n) _ 0o755 0o644 (statAt_nested n)]

/-! ## The run pipeline (`run`, src/index.js lines 475-606)

`run` parses the reference, resolves `latest` (one API call) when needed,
**always** lists the release assets (a second API call, issued before any
cache lookup), matches an asset, and only then consults the cache: the
whole-entry marker `.binary_path` is trusted when the path it holds
exists and is executable (`access X_OK`); otherwise the miss branch
re-checks the raw asset file (skip download when present with nonzero
size) and, for archives, the extraction marker
`bin/.extracted_binary_path`, trusted when its path merely exists
(`access F_OK`).  The pipeline is embedded as a trace of its externally
visible stages; network responses, the filesystem and the extraction
outcome are supplied by an explicit environment. -/

/-- A file on disk: marker files carry a path in `contents`. -/
structure FileSt where
  contents : String
  size : Nat
  mode : Nat
deriving DecidableEq, Repr

/-- The filesystem as a path-indexed record list. -/
def World := List (String × FileSt)

/-- Lookup of a path (readFile / access / stat). -/
def lookupW (w : World) (p : String) : Option FileSt :=
  (w.find? fun e => e.1 = p).map (·.2)

/-- Externally visible stages of one invocation. -/
inductive RunEvent where
  | netLatest
  | netAssets
  | download
  | extract
  | spawn (path : String)
deriving DecidableEq, Repr

/-- Number of outbound API calls in a trace. -/
def netCount (evs : List RunEvent) : Nat :=
  evs.countP fun e =>
    match e with
    | .netLatest => true
    | .netAssets => true
    | _ => false

/-- Environment of one invocation: the reference, the API's answers, the
host platform, the filesystem, and the path the extraction step would
resolve (the outcome of `findBinaryInDir` on the unpacked archive). -/
structure RunEnv where
  repoInput : String
  latestTag : String
  assets : List ReleaseAsset
  platform : String
  arch : String
  world : World
  extractOutcome : String
  homeDir : String

/-- `path.join(os.homedir(), ".binrun", "cache", owner_repo_version)`. -/
def cacheDirOf (env : RunEnv) (r : RepositoryReference) (ver : String) : String :=
  env.homeDir ++ "/.binrun/cache/" ++ r.owner ++ "_" ++ r.repo ++ "_" ++ ver

/-- The miss branch of `run` (src/index.js lines 515-580): stat the raw
asset (download unless present with nonzero size), then for archives
consult the extraction marker (`access F_OK` on the path it holds: bare
existence), extracting when it is invalid; direct binaries are spawned
from the asset path. -/
def dlEvents (env : RunEnv) (binaryPath : String) : List RunEvent :=
  match lookupW env.world binaryPath with
  | some f => if f.size > 0 then [] else [.download]
  | none => [.download]

/-- Archive handling of the miss branch (src/index.js lines 535-571):
read the extraction marker, `access F_OK` the path it holds, and extract
only when either step fails. -/
def runMissArchive (env : RunEnv) (extractDir : String) (dEvs : List RunEvent) :
    List RunEvent :=
  match lookupW env.world (extractDir ++ "/.extracted_binary_path") with
  | some mf =>
    match lookupW env.world mf.contents with
    | some _ => dEvs ++ [.spawn mf.contents]
    | none => dEvs ++ [.extract, .spawn env.extractOutcome]
  | none => dEvs ++ [.extract, .spawn env.extractOutcome]

def runMiss (env : RunEnv) (binDir : String) (asset : ReleaseAsset)
    (kind : ArchiveKind) : List RunEvent :=
  let binaryPath := binDir ++ "/" ++ asset.name
  let dEvs := dlEvents env binaryPath
  match kind with
  | .binary => dEvs ++ [.spawn binaryPath]
  | .tar => runMissArchive env (binDir ++ "/bin") dEvs
  | .zip => runMissArchive env (binDir ++ "/bin") dEvs

/-- `run` (src/index.js lines 475-606) as the trace of its stages, up to
spawning the resolved binary. -/
def runModel (env : RunEnv) : Except BinrunError (List RunEvent) :=
  match parseRepoURL env.repoInput with
  | .error e => .error e
  | .ok r =>
    let actualVersion := if r.version = "latest" then env.latestTag else r.version
    let evs1 : List RunEvent :=
      (if r.version = "latest" then [.netLatest] else []) ++ [.netAssets]
    match getSystemInfo env.platform env.arch with
    | .error e => .error e
    | .ok sys =>
      match findMatchingAsset env.assets sys r.repo with
      | .error e => .error e
      | .ok (asset, kind) =>
        let binDir := cacheDirOf env r actualVersion
        match lookupW env.world (binDir ++ "/.binary_path") with
        | some mf =>
          match lookupW env.world mf.contents with
          | some target =>
            if hasExecBit target.mode then .ok (evs1 ++ [.spawn mf.contents])
            else .ok (evs1 ++ runMiss env binDir asset kind)
          | none => .ok (evs1 ++ runMiss env binDir asset kind)
        | none => .ok (evs1 ++ runMiss env binDir asset kind)

/-- **C1 (amended).** For an explicit-version reference with a valid
whole-entry cache marker (existing, executable target) and a matching
asset, a re-invocation spawns the cached binary after exactly one
outbound network call — the unconditional asset-listing request — with no
download and no extraction. -/
theorem runModel_cached_single_net_call (env : RunEnv) (r : RepositoryReference)
    (sys : SystemInfo) (asset : ReleaseAsset) (kind : ArchiveKind) (mf target : FileSt)
    (hparse : parseRepoURL env.repoInput = .ok r) (hver : r.version ≠ "latest")
    (hsys : getSystemInfo env.platform env.arch = .ok sys)
    (hmatch : findMatchingAsset env.assets sys r.repo = .ok (asset, kind))
    (hmarker : lookupW env.world (cacheDirOf env r r.version ++ "/.binary_path") = some mf)
    (htarget : lookupW env.world mf.contents = some target)
    (hexec : hasExecBit target.mode = true) :
    runModel env = .ok [RunEvent.netAssets, RunEvent.spawn mf.contents] ∧
      netCount [RunEvent.netAssets, RunEvent.spawn mf.contents] = 1 := by
  refine ⟨?_, rfl⟩
  rw [runModel, hparse]
  simp only [if_neg hver, hsys, hmatch, hmarker, htarget, hexec, if_true, List.nil_append]
  rfl

/-- Environment of the C1/C2 scenario: explicit version `v1.2.0`, a
matching tar asset, and a fully cached prior run. -/
def envCached : RunEnv where
  repoInput := "github.com/acme/widget@v1.2.0"
  latestTag := "v9"
  assets := [⟨"widget_Darwin_arm64.tar.gz", "https://dl/widget.tar.gz"⟩]
  platform := "darwin"
  arch := "arm64"
  world :=
    [("/home/u/.binrun/cache/acme_widget_v1.2.0/.binary_path",
        ⟨"/home/u/.binrun/cache/acme_widget_v1.2.0/bin/widget", 54, 0o644⟩),
      ("/home/u/.binrun/cache/acme_widget_v1.2.0/bin/widget", ⟨"", 8120, 0o755⟩)]
  extractOutcome := "/home/u/.binrun/cache/acme_widget_v1.2.0/bin/widget"
  homeDir := "/home/u"

/-- Witness for C1 (amended): the fully cached explicit-version scenario
makes exactly one network call. -/
theorem runModel_cached_single_net_call_witness :
    runModel envCached =
        .ok [RunEvent.netAssets,
          RunEvent.spawn "/home/u/.binrun/cache/acme_widget_v1.2.0/bin/widget"] ∧
      netCount [RunEvent.netAssets,
        RunEvent.spawn "/home/u/.binrun/cache/acme_widget_v1.2.0/bin/widget"] = 1 :=
  runModel_cached_single_net_call envCached ⟨"acme", "widget", "v1.2.0"⟩
    ⟨"Darwin", "arm64", "darwin"⟩ ⟨"widget_Darwin_arm64.tar.gz", "https://dl/widget.tar.gz"⟩
    .tar ⟨"/home/u/.binrun/cache/acme_widget_v1.2.0/bin/widget", 54, 0o644⟩ ⟨"", 8120, 0o755⟩
    rfl (by decide) rfl rfl rfl rfl (by decide)

/-- **C1 (counterexample).** With the binary fully resolved and cached by
a previous run (valid whole-entry marker, executable target), the
re-invocation still performs one outbound network call — the
asset-listing request — before spawning the cached binary, not zero. -/
theorem runModel_cached_not_zero_calls :
    runModel envCached =
        .ok [RunEvent.netAssets,
          RunEvent.spawn "/home/u/.binrun/cache/acme_widget_v1.2.0/bin/widget"] ∧
      netCount [RunEvent.netAssets,
        RunEvent.spawn "/home/u/.binrun/cache/acme_widget_v1.2.0/bin/widget"] ≠ 0 ∧
      lookupW envCached.world
          "/home/u/.binrun/cache/acme_widget_v1.2.0/bin/widget" = some ⟨"", 8120, 0o755⟩ ∧
      hasExecBit 0o755 = true :=
  ⟨rfl, by decide, rfl, by decide⟩

theorem dlEvents_shape (env : RunEnv) (p : String) :
    dlEvents env p = [] ∨ dlEvents env p = [.download] := by
  rw [dlEvents]
  rcases lookupW env.world p with _ | f
  · exact Or.inr rfl
  · by_cases hs : f.size > 0 <;> simp [hs]

theorem extract_runMissArchive (env : RunEnv) (extractDir : String)
    (dEvs : List RunEvent) (hd : dEvs = [] ∨ dEvs = [.download]) (mf : FileSt)
    (hmf : lookupW env.world (extractDir ++ "/.extracted_binary_path") = some mf) :
    RunEvent.extract ∉ runMissArchive env extractDir dEvs ↔
      (lookupW env.world mf.contents).isSome = true := by
  rw [runMissArchive]
  simp only [hmf]
  cases ht : lookupW env.world mf.contents with
  | some tg => rcases hd with rfl | rfl <;> simp
  | none => rcases hd with rfl | rfl <;> simp

/-- **C2 (amended).** The two markers are checked differently.  The
extraction marker is trusted — extraction skipped — precisely when the
path it stores still exists, with no executability requirement
(`access F_OK`).  The whole-entry marker demands an existing **and**
executable target: the cached path is spawned directly when the stored
path exists and carries an executable bit, and the miss branch is taken
in every other case — stored path present but not executable, stored
path no longer existing, or the marker file itself unreadable. -/
theorem marker_trust_conditions :
    (∀ (env : RunEnv) (binDir : String) (asset : ReleaseAsset) (kind : ArchiveKind)
      (mf : FileSt), kind ≠ .binary →
      lookupW env.world (binDir ++ "/bin" ++ "/.extracted_binary_path") = some mf →
      (RunEvent.extract ∉ runMiss env binDir asset kind ↔
        (lookupW env.world mf.contents).isSome = true)) ∧
    (∀ (env : RunEnv) (r : RepositoryReference) (sys : SystemInfo) (asset : ReleaseAsset)
      (kind : ArchiveKind) (mf target : FileSt),
      parseRepoURL env.repoInput = .ok r → r.version ≠ "latest" →
      getSystemInfo env.platform env.arch = .ok sys →
      findMatchingAsset env.assets sys r.repo = .ok (asset, kind) →
      lookupW env.world (cacheDirOf env r r.version ++ "/.binary_path") = some mf →
      lookupW env.world mf.contents = some target → hasExecBit target.mode = true →
      runModel env = .ok [RunEvent.netAssets, RunEvent.spawn mf.contents]) ∧
    (∀ (env : RunEnv) (r : RepositoryReference) (sys : SystemInfo) (asset : ReleaseAsset)
      (kind : ArchiveKind) (mf target : FileSt),
      parseRepoURL env.repoInput = .ok r → r.version ≠ "latest" →
      getSystemInfo env.platform env.arch = .ok sys →
      findMatchingAsset env.assets sys r.repo = .ok (asset, kind) →
      lookupW env.world (cacheDirOf env r r.version ++ "/.binary_path") = some mf →
      lookupW env.world mf.contents = some target → hasExecBit target.mode = false →
      runModel env =
        .ok ([RunEvent.netAssets] ++ runMiss env (cacheDirOf env r r.version) asset kind)) ∧
    (∀ (env : RunEnv) (r : RepositoryReference) (sys : SystemInfo) (asset : ReleaseAsset)
      (kind : ArchiveKind) (mf : FileSt),
      parseRepoURL env.repoInput = .ok r → r.version ≠ "latest" →
      getSystemInfo env.platform env.arch = .ok sys →
      findMatchingAsset env.assets sys r.repo = .ok (asset, kind) →
      lookupW env.world (cacheDirOf env r r.version ++ "/.binary_path") = some mf →
      lookupW env.world mf.contents = none →
      runModel env =
        .ok ([RunEvent.netAssets] ++ runMiss env (cacheDirOf env r r.version) asset kind)) ∧
    (∀ (env : RunEnv) (r : RepositoryReference) (sys : SystemInfo) (asset : ReleaseAsset)
      (kind : ArchiveKind),
      parseRepoURL env.repoInput = .ok r → r.version ≠ "latest" →
      getSystemInfo env.platform env.arch = .ok sys →
      findMatchingAsset env.assets sys r.repo = .ok (asset, kind) →
      lookupW env.world (cacheDirOf env r r.version ++ "/.binary_path") = none →
      runModel env =
        .ok ([RunEvent.netAssets] ++ runMiss env (cacheDirOf env r r.version) asset kind)) := by
  refine ⟨?_, ?_, ?_, ?_, ?_⟩
  · intro env binDir asset kind mf hk hmf
    cases kind with
    | binary => exact absurd rfl hk
    | tar =>
      exact extract_runMissArchive env (binDir ++ "/bin") _
        (dlEvents_shape env (binDir ++ "/" ++ asset.name)) mf hmf
    | zip =>
      exact extract_runMissArchive env (binDir ++ "/bin") _
        (dlEvents_shape env (binDir ++ "/" ++ asset.name)) mf hmf
  · intro env r sys asset kind mf target hparse hver hsys hmatch hmarker htarget hexec
    rw [runModel, hparse]
    simp only [if_neg hver, hsys, hmatch, hmarker, htarget, hexec, if_true,
      List.nil_append, List.singleton_append]
  · intro env r sys asset kind mf target hparse hver hsys hmatch hmarker htarget hexec
    rw [runModel, hparse]
    simp only [if_neg hver, hsys, hmatch, hmarker, htarget, hexec, if_false,
      Bool.false_eq_true, List.nil_append]
  · intro env r sys asset kind mf hparse hver hsys hmatch hmarker htarget
    rw [runModel, hparse]
    simp only [if_neg hver, hsys, hmatch, hmarker, htarget, List.nil_append]
  · intro env r sys asset kind hparse hver hsys hmatch hmarker
    rw [runModel, hparse]
    simp only [if_neg hver, hsys, hmatch, hmarker, List.nil_append]

/-- Environment where the extraction marker points at an existing but
**non-executable** file: no whole-entry marker, raw archive on disk with
nonzero size. -/
def envExtractMarker : RunEnv where
  repoInput := "github.com/acme/widget@v1.2.0"
  latestTag := "v9"
  assets := [⟨"widget_Darwin_arm64.tar.gz", "https://dl/widget.tar.gz"⟩]
  platform := "darwin"
  arch := "arm64"
  world :=
    [("/home/u/.binrun/cache/acme_widget_v1.2.0/widget_Darwin_arm64.tar.gz",
        ⟨"", 5000, 0o644⟩),
      ("/home/u/.binrun/cache/acme_widget_v1.2.0/bin/.extracted_binary_path",
        ⟨"/home/u/.binrun/cache/acme_widget_v1.2.0/bin/widget", 51, 0o644⟩),
      ("/home/u/.binrun/cache/acme_widget_v1.2.0/bin/widget", ⟨"", 9000, 0⟩)]
  extractOutcome := "/home/u/.binrun/cache/acme_widget_v1.2.0/bin/widget"
  homeDir := "/home/u"

/-- Environment where the whole-entry marker's stored path no longer
exists on disk: the raw archive is present with nonzero size and there is
no extraction marker, so the stage after the stale marker is redone. -/
def envStaleMarker : RunEnv where
  repoInput := "github.com/acme/widget@v1.2.0"
  latestTag := "v9"
  assets := [⟨"widget_Darwin_arm64.tar.gz", "https://dl/widget.tar.gz"⟩]
  platform := "darwin"
  arch := "arm64"
  world :=
    [("/home/u/.binrun/cache/acme_widget_v1.2.0/.binary_path",
        ⟨"/home/u/.binrun/cache/acme_widget_v1.2.0/bin/widget", 51, 0o644⟩),
      ("/home/u/.binrun/cache/acme_widget_v1.2.0/widget_Darwin_arm64.tar.gz",
        ⟨"", 5000, 0o644⟩)]
  extractOutcome := "/home/u/.binrun/cache/acme_widget_v1.2.0/bin/widget"
  homeDir := "/home/u"

/-- Witness for C2 (amended), both halves: with the extraction marker's
target existing but not executable, extraction is still skipped; and with
the whole-entry marker's stored path gone, the miss branch runs (here:
re-extraction) despite the marker being readable. -/
theorem marker_trust_conditions_witness :
    (RunEvent.extract ∉ runMiss envExtractMarker
      "/home/u/.binrun/cache/acme_widget_v1.2.0"
      ⟨"widget_Darwin_arm64.tar.gz", "https://dl/widget.tar.gz"⟩ .tar) ∧
    runModel envStaleMarker = .ok [RunEvent.netAssets, RunEvent.extract,
      RunEvent.spawn "/home/u/.binrun/cache/acme_widget_v1.2.0/bin/widget"] := by
  constructor
  · exact (marker_trust_conditions.1 envExtractMarker
      "/home/u/.binrun/cache/acme_widget_v1.2.0"
      ⟨"widget_Darwin_arm64.tar.gz", "https://dl/widget.tar.gz"⟩ .tar
      ⟨"/home/u/.binrun/cache/acme_widget_v1.2.0/bin/widget", 51, 0o644⟩
      (by decide) rfl).mpr (by decide)
  · have h := marker_trust_conditions.2.2.2.1 envStaleMarker ⟨"acme", "widget", "v1.2.0"⟩
      ⟨"Darwin", "arm64", "darwin"⟩
      ⟨"widget_Darwin_arm64.tar.gz", "https://dl/widget.tar.gz"⟩ .tar
      ⟨"/home/u/.binrun/cache/acme_widget_v1.2.0/bin/widget", 51, 0o644⟩
      rfl (by decide) rfl rfl rfl rfl
    rw [h]
    rfl

/-- **C2 (counterexample).** The extraction marker names a file that
exists with mode `0` — not executable — yet the run skips extraction and
spawns that file: the `extract` event is absent from the trace, refuting
that both markers require an executable target. -/
theorem extraction_marker_ignores_exec_cex :
    runModel envExtractMarker =
        .ok [RunEvent.netAssets,
          RunEvent.spawn "/home/u/.binrun/cache/acme_widget_v1.2.0/bin/widget"] ∧
      RunEvent.extract ∉
        [RunEvent.netAssets,
          RunEvent.spawn "/home/u/.binrun/cache/acme_widget_v1.2.0/bin/widget"] ∧
      lookupW envExtractMarker.world
          "/home/u/.binrun/cache/acme_widget_v1.2.0/bin/widget" = some ⟨"", 9000, 0⟩ ∧
      hasExecBit 0 = false := by
  exact ⟨rfl, by decide, rfl, by decide⟩

end Binrun
